import Mathlib

/-!
# Verification of `simple-cache-id` (persistence core)

Shallow embedding of `src/index.js` (class `SimpleCache`): the in-memory
entry store with TTL expiry, the `.sdb` binary codec
(`_serializeBinary` / `_deserializeBinary`), the TTL-aware save/load
filters (`_saveToBinary` / `_loadFromBinary`), the debounced writer
(`_scheduleSave`), and the single-writer instance registry
(`SimpleCache._activeFiles`).

Modelling conventions:
* Node `Buffer`s are `List Nat`, one element per byte (each element is a
  byte, `< 256`, whenever produced by the code under study).
* JavaScript strings (cache keys) are represented by their UTF-8 byte
  sequences (`List Nat`): `Buffer.from(key, 'utf8')` is the identity and
  `buffer.toString('utf8', a, b)` is the byte slice in this model.
* `JSON.stringify` / `JSON.parse` are platform builtins, not code of the
  repository; the codec definitions are parameterized by a pair
  `stringify : V → List Nat` and `parse : List Nat → Option V`
  (`none` models a thrown `SyntaxError`).  A concrete executable model
  of both (`Json.stringifyModel` / `jsonParseModel`) is provided for
  evaluating theorems at concrete inputs.
* Node `Buffer.write*` methods throw `ERR_OUT_OF_RANGE` when the value
  does not fit the field; writes therefore return `Option`.  Node
  `Buffer.read*` methods throw when the field overruns the buffer;
  reads therefore return `Except`/`Option`.  `buffer.toString` does NOT
  throw on an overrunning range: it clamps to the available bytes, and
  decoding a `Buffer` with the `'ascii'` encoding strips the high bit
  of every byte.  Both behaviours are reproduced exactly.
* Timestamps (`Date.now()`) are integers (milliseconds).
-/

namespace SimpleCacheId

/-! ## Little-endian byte fields -/

/-- Little-endian byte encoding of `n` into exactly `k` bytes
(the byte layout produced by Node's `writeUInt*LE`/`writeBigInt64LE`). -/
def encodeLE : Nat → Nat → List Nat
  | 0, _ => []
  | k + 1, n => n % 256 :: encodeLE k (n / 256)

/-- Little-endian read of a `k`-byte unsigned field from the front of the
remaining buffer, returning the value and the rest; `none` models Node's
`ERR_OUT_OF_RANGE` when fewer than `k` bytes remain. -/
def readLE : Nat → List Nat → Option (Nat × List Nat)
  | 0, rest => some (0, rest)
  | _ + 1, [] => none
  | k + 1, b :: rest => (readLE k rest).map fun p => (b + 256 * p.1, p.2)

/-- `buffer.writeUInt16LE(n)`: throws (`none`) unless `0 ≤ n ≤ 0xffff`. -/
def writeUInt16LE (n : Nat) : Option (List Nat) :=
  if n ≤ 65535 then some (encodeLE 2 n) else none

/-- `buffer.writeUInt32LE(n)`: throws (`none`) unless `0 ≤ n ≤ 0xffffffff`. -/
def writeUInt32LE (n : Nat) : Option (List Nat) :=
  if n ≤ 4294967295 then some (encodeLE 4 n) else none

/-- `buffer.writeBigInt64LE(BigInt(e))`: throws (`none`) unless
`-2^63 ≤ e < 2^63`; writes the two's-complement little-endian bytes. -/
def writeBigInt64LE (e : Int) : Option (List Nat) :=
  if -(2 ^ 63) ≤ e ∧ e < 2 ^ 63 then some (encodeLE 8 (e % (2 ^ 64)).toNat) else none

/-- Reinterpret an unsigned 64-bit value as signed (two's complement),
as `readBigInt64LE` does. -/
def toInt64 (u : Nat) : Int :=
  if u < 2 ^ 63 then (u : Int) else (u : Int) - 2 ^ 64

@[simp] theorem encodeLE_length (k n : Nat) : (encodeLE k n).length = k := by
  induction k generalizing n with
  | zero => rfl
  | succ k ih => simp [encodeLE, ih]

theorem readLE_encodeLE (k : Nat) :
    ∀ n rest, n < 256 ^ k → readLE k (encodeLE k n ++ rest) = some (n, rest) := by
  induction k with
  | zero =>
    intro n rest hn
    interval_cases n
    rfl
  | succ k ih =>
    intro n rest hn
    have hdiv : n / 256 < 256 ^ k := by
      rw [Nat.div_lt_iff_lt_mul (by norm_num)]
      calc n < 256 ^ (k + 1) := hn
        _ = 256 ^ k * 256 := by ring
    simp only [encodeLE, readLE, List.cons_append, List.append_eq,
      ih (n / 256) rest hdiv, Option.map_some']
    have : n % 256 + 256 * (n / 256) = n := by omega
    rw [this]

theorem toInt64_roundtrip (e : Int) (h₁ : -(2 ^ 63) ≤ e) (h₂ : e < 2 ^ 63) :
    toInt64 (e % (2 ^ 64)).toNat = e := by
  unfold toInt64
  have hmod : e % (2 ^ 64) = if 0 ≤ e then e else e + 2 ^ 64 := by
    split <;> omega
  split <;> omega

/-! ## The `.sdb` entry and the binary codec (`_serializeBinary` / `_deserializeBinary`) -/

/-- One decoded/encoded snapshot entry: `{ key, value, expiryTime }`.
`key` is the UTF-8 byte sequence of the cache key; `expiryTime` is an
absolute timestamp in ms (`0` = permanent). -/
structure SDBEntry (V : Type) where
  key : List Nat
  value : V
  expiryTime : Int
  deriving Repr, DecidableEq

/-- Errors thrown while decoding:
`badMagic` = `'Invalid SDB file format'`,
`badVersion v` = `'Unsupported SDB version: v'`,
`outOfRange` = Node's `ERR_OUT_OF_RANGE` from a fixed-width `read*`,
`badJson` = `SyntaxError` from `JSON.parse`. -/
inductive DecodeErr where
  | badMagic
  | badVersion (v : Nat)
  | outOfRange
  | badJson
  deriving Repr, DecidableEq

/-- Encoding of one entry inside `_serializeBinary`'s loop:
key length (uint16 LE), key bytes, expiry (int64 LE), value JSON length
(uint32 LE), value JSON bytes.  `none` models a thrown `ERR_OUT_OF_RANGE`
from one of the fixed-width writes. -/
def serializeEntry {V : Type} (stringify : V → List Nat) (e : SDBEntry V) :
    Option (List Nat) := do
  let valueBuf := stringify e.value
  let keyLenB ← writeUInt16LE e.key.length
  let expB ← writeBigInt64LE e.expiryTime
  let valueLenB ← writeUInt32LE valueBuf.length
  pure (keyLenB ++ e.key ++ expB ++ valueLenB ++ valueBuf)

/-- `_serializeBinary(entries)`: 12-byte header (magic `'SDB'` = bytes
83,68,66, version byte 1, entry count uint32 LE, 4 reserved zero bytes)
followed by the concatenated entry encodings.  `none` models a throw
(count or some field out of range for its fixed-width write). -/
def serializeBinary {V : Type} (stringify : V → List Nat)
    (entries : List (SDBEntry V)) : Option (List Nat) := do
  let countB ← writeUInt32LE entries.length
  let bodies ← entries.mapM (serializeEntry stringify)
  pure ([83, 68, 66, 1] ++ countB ++ [0, 0, 0, 0] ++ bodies.flatten)

/-- A fixed-width unsigned read, as an `Except` (`readUInt16LE` for
`k = 2`, `readUInt32LE` for `k = 4`, the unsigned half of
`readBigInt64LE` for `k = 8`). -/
def readField (k : Nat) (rem : List Nat) : Except DecodeErr (Nat × List Nat) :=
  match readLE k rem with
  | none => .error .outOfRange
  | some p => .ok p

/-- One iteration of `_deserializeBinary`'s entry loop, acting on the
buffer bytes from the current offset on.  `buffer.toString('utf8', …)`
clamps an overrunning range (`List.take`), exactly as Node does. -/
def decodeEntry {V : Type} (parse : List Nat → Option V) (rem : List Nat) :
    Except DecodeErr (SDBEntry V × List Nat) := do
  let (keyLength, r1) ← readField 2 rem
  let key := r1.take keyLength
  let r2 := r1.drop keyLength
  let (expU, r3) ← readField 8 r2
  let expiryTime := toInt64 expU
  let (valueLength, r4) ← readField 4 r3
  let valueJson := r4.take valueLength
  let value ← match parse valueJson with
    | none => Except.error DecodeErr.badJson
    | some v => Except.ok v
  let r5 := r4.drop valueLength
  .ok (⟨key, value, expiryTime⟩, r5)

/-- `_deserializeBinary`'s `for (let i = 0; i < entryCount; i++)` loop. -/
def decodeEntries {V : Type} (parse : List Nat → Option V) :
    Nat → List Nat → Except DecodeErr (List (SDBEntry V))
  | 0, _ => .ok []
  | n + 1, rem => do
    let (e, r) ← decodeEntry parse rem
    let es ← decodeEntries parse n r
    .ok (e :: es)

/-- `_deserializeBinary(buffer)`.  The magic check is
`buffer.toString('ascii', 0, 3) !== 'SDB'`: the `'ascii'` decoding strips
the high bit of each byte (`% 128`) and clamps to the available bytes. -/
def deserializeBinary {V : Type} (parse : List Nat → Option V)
    (buffer : List Nat) : Except DecodeErr (List (SDBEntry V)) :=
  if (buffer.take 3).map (fun b => b % 128) = [83, 68, 66] then
    match readField 1 (buffer.drop 3) with
    | .error e => .error e
    | .ok (version, _) =>
      if version = 1 then
        match readField 4 (buffer.drop 4) with
        | .error e => .error e
        | .ok (entryCount, _) => decodeEntries parse entryCount (buffer.drop 12)
      else .error (.badVersion version)
  else .error .badMagic

/-! ## Round-trip of the binary codec -/

/-- Well-formedness of an entry for the round-trip: the key is a UTF-8
byte string whose length fits the 2-byte field, the expiry is `0`
(permanent) or a positive timestamp fitting a signed 64-bit field, the
value's JSON text fits the 4-byte field, and the platform JSON codec
round-trips on the value. -/
def EntryWF {V : Type} (stringify : V → List Nat) (parse : List Nat → Option V)
    (e : SDBEntry V) : Prop :=
  e.key.length ≤ 65535 ∧ (∀ b ∈ e.key, b < 256) ∧
  0 ≤ e.expiryTime ∧ e.expiryTime < 2 ^ 63 ∧
  (stringify e.value).length ≤ 4294967295 ∧
  parse (stringify e.value) = some e.value

/-- The byte string `serializeEntry` produces for a well-formed entry. -/
def entryBytes {V : Type} (stringify : V → List Nat) (e : SDBEntry V) : List Nat :=
  encodeLE 2 e.key.length ++ e.key ++ encodeLE 8 ((e.expiryTime % (2 ^ 64)).toNat) ++
    encodeLE 4 (stringify e.value).length ++ stringify e.value

theorem ok_bind {ε α β : Type} (a : α) (f : α → Except ε β) :
    ((Except.ok a : Except ε α) >>= f) = f a := rfl

theorem error_bind {ε α β : Type} (e : ε) (f : α → Except ε β) :
    ((Except.error e : Except ε α) >>= f) = Except.error e := rfl

theorem serializeEntry_eq_some {V : Type} (stringify : V → List Nat)
    (parse : List Nat → Option V) (e : SDBEntry V) (hwf : EntryWF stringify parse e) :
    serializeEntry stringify e = some (entryBytes stringify e) := by
  obtain ⟨hk, -, he₀, he₁, hv, -⟩ := hwf
  have hcond : -(9223372036854775808 : Int) ≤ e.expiryTime ∧
      e.expiryTime < 9223372036854775808 := by constructor <;> omega
  simp [serializeEntry, writeUInt16LE, writeBigInt64LE, writeUInt32LE, entryBytes,
    hk, hv, hcond]

theorem decodeEntry_entryBytes {V : Type} (stringify : V → List Nat)
    (parse : List Nat → Option V) (e : SDBEntry V) (rest : List Nat)
    (hwf : EntryWF stringify parse e) :
    decodeEntry parse (entryBytes stringify e ++ rest) = .ok (e, rest) := by
  obtain ⟨hk, -, he₀, he₁, hv, hparse⟩ := hwf
  have hexpU : ((e.expiryTime % (2 ^ 64)).toNat) < 256 ^ 8 := by
    have h₁ : 0 ≤ e.expiryTime % (2 ^ 64) := Int.emod_nonneg _ (by norm_num)
    have h₂ : e.expiryTime % (2 ^ 64) < 2 ^ 64 := Int.emod_lt_of_pos _ (by norm_num)
    omega
  have htoInt : toInt64 ((e.expiryTime % (2 ^ 64)).toNat) = e.expiryTime :=
    toInt64_roundtrip _ (by omega) he₁
  simp only [entryBytes, List.append_assoc]
  simp only [decodeEntry, readField,
    readLE_encodeLE 2 e.key.length _ (by omega),
    readLE_encodeLE 8 _ _ hexpU,
    readLE_encodeLE 4 (stringify e.value).length _ (by omega),
    ok_bind, List.take_left, List.drop_left, htoInt, hparse]

theorem decodeEntries_entryBytes {V : Type} (stringify : V → List Nat)
    (parse : List Nat → Option V) (es : List (SDBEntry V)) (rest : List Nat)
    (hwf : ∀ e ∈ es, EntryWF stringify parse e) :
    decodeEntries parse es.length ((es.map (entryBytes stringify)).flatten ++ rest) =
      .ok es := by
  induction es with
  | nil => rfl
  | cons e es ih =>
    simp only [List.map_cons, List.flatten_cons, List.length_cons, List.append_assoc]
    simp only [decodeEntries,
      decodeEntry_entryBytes stringify parse e _ (hwf e (List.mem_cons_self e es)),
      ih (fun e' he' => hwf e' (List.mem_cons_of_mem e he')), ok_bind]

theorem mapM_serializeEntry {V : Type} (stringify : V → List Nat)
    (parse : List Nat → Option V) (es : List (SDBEntry V))
    (hwf : ∀ e ∈ es, EntryWF stringify parse e) :
    es.mapM (serializeEntry stringify) = some (es.map (entryBytes stringify)) := by
  induction es with
  | nil => rfl
  | cons e es ih =>
    simp only [List.mapM_cons,
      serializeEntry_eq_some stringify parse e (hwf e (List.mem_cons_self e es)),
      ih (fun e' he' => hwf e' (List.mem_cons_of_mem e he')), List.map_cons]
    rfl

theorem option_some_bind {α β : Type} (a : α) (f : α → Option β) :
    ((some a : Option α) >>= f) = f a := rfl

/-- The whole buffer `_serializeBinary` produces for a well-formed
entry list. -/
theorem serializeBinary_eq_some {V : Type} (stringify : V → List Nat)
    (parse : List Nat → Option V) (es : List (SDBEntry V))
    (hcount : es.length ≤ 4294967295)
    (hwf : ∀ e ∈ es, EntryWF stringify parse e) :
    serializeBinary stringify es =
      some ([83, 68, 66, 1] ++ encodeLE 4 es.length ++ [0, 0, 0, 0] ++
        (es.map (entryBytes stringify)).flatten) := by
  simp only [serializeBinary, writeUInt32LE, hcount, if_true,
    mapM_serializeEntry stringify parse es hwf, option_some_bind, Option.pure_def]

theorem readLE_one (b : Nat) (rest : List Nat) : readLE 1 (b :: rest) = some (b, rest) := by
  simp [readLE]

/-- Decoding a buffer with a well-formed header reduces to the entry loop. -/
theorem deserializeBinary_header {V : Type} (parse : List Nat → Option V)
    (n : Nat) (body : List Nat) (hn : n ≤ 4294967295) :
    deserializeBinary parse ([83, 68, 66, 1] ++ encodeLE 4 n ++ [0, 0, 0, 0] ++ body) =
      decodeEntries parse n body := by
  have hassoc : ([83, 68, 66, 1] ++ encodeLE 4 n ++ [0, 0, 0, 0] ++ body : List Nat) =
      83 :: 68 :: 66 :: 1 :: (encodeLE 4 n ++ ([0, 0, 0, 0] ++ body)) := by
    simp
  have hdrop12 :
      (83 :: 68 :: 66 :: 1 :: (encodeLE 4 n ++ ([0, 0, 0, 0] ++ body)) : List Nat).drop 12 =
        body := by
    have hsplit : (83 :: 68 :: 66 :: 1 :: (encodeLE 4 n ++ ([0, 0, 0, 0] ++ body)) : List Nat) =
        (83 :: 68 :: 66 :: 1 :: (encodeLE 4 n ++ [0, 0, 0, 0])) ++ body := by
      simp
    rw [hsplit]
    exact List.drop_left' (by simp)
  rw [hassoc, deserializeBinary]
  simp only [List.take_succ_cons, List.take_zero, List.map_cons, List.map_nil,
    List.drop_succ_cons, List.drop_zero, hdrop12]
  norm_num [readField, readLE_one, readLE_encodeLE 4 n _ (by omega)]

/-- C1.  Encoding any finite sequence of well-formed entries (string
keys, JSON-round-trippable values, permanent `expiry = 0` or
timestamped) and decoding the produced buffer yields exactly the same
sequence of `(key, value, expiry)` triples. -/
theorem serializeBinary_deserializeBinary_roundtrip {V : Type}
    (stringify : V → List Nat) (parse : List Nat → Option V)
    (entries : List (SDBEntry V))
    (hcount : entries.length ≤ 4294967295)
    (hwf : ∀ e ∈ entries, EntryWF stringify parse e) :
    ∃ buf, serializeBinary stringify entries = some buf ∧
      deserializeBinary parse buf = .ok entries := by
  refine ⟨_, serializeBinary_eq_some stringify parse entries hcount hwf, ?_⟩
  rw [deserializeBinary_header parse entries.length _ hcount]
  have := decodeEntries_entryBytes stringify parse entries [] hwf
  simpa using this

/-! ## A concrete executable model of the platform JSON codec

`JSON.stringify` / `JSON.parse` are JavaScript builtins, not code of
this repository.  To evaluate the codec theorems on concrete structured
values we model the JSON value space (nested objects, arrays, primitive
scalars) and a canonical stringifier plus a parser for it.  Strings are
UTF-8 byte lists; the model covers strings without escape-needing bytes
(no `"` or `\`), which suffices for concrete witnesses. -/

/-- JSON-serializable structured data: primitive scalars (null, boolean,
integer number, string), arrays, and objects. -/
inductive Json where
  | jnull
  | jbool (b : Bool)
  | jnum (n : Int)
  | jstr (s : List Nat)
  | jarr (xs : List Json)
  | jobj (fields : List (List Nat × Json))

/-- Decimal digit bytes of a natural number, most significant first. -/
def natDigits (n : Nat) : List Nat := (Nat.toDigits 10 n).map Char.toNat

/-- Decimal byte text of an integer (ASCII, `-` prefix when negative). -/
def intLit (i : Int) : List Nat :=
  if i < 0 then 45 :: natDigits i.natAbs else natDigits i.toNat

mutual

/-- Model `JSON.stringify`, producing UTF-8 bytes (no whitespace). -/
def Json.stringifyModel : Json → List Nat
  | .jnull => [110, 117, 108, 108]
  | .jbool true => [116, 114, 117, 101]
  | .jbool false => [102, 97, 108, 115, 101]
  | .jnum n => intLit n
  | .jstr s => 34 :: s ++ [34]
  | .jarr xs => 91 :: stringifyArr xs ++ [93]
  | .jobj fields => 123 :: stringifyObj fields ++ [125]

/-- Comma-separated stringification of array elements. -/
def stringifyArr : List Json → List Nat
  | [] => []
  | [x] => Json.stringifyModel x
  | x :: xs => Json.stringifyModel x ++ 44 :: stringifyArr xs

/-- Comma-separated stringification of object fields. -/
def stringifyObj : List (List Nat × Json) → List Nat
  | [] => []
  | [(k, v)] => 34 :: k ++ [34, 58] ++ Json.stringifyModel v
  | (k, v) :: fs => 34 :: k ++ [34, 58] ++ Json.stringifyModel v ++ 44 :: stringifyObj fs

end

/-- Scan a JSON string body up to the closing quote byte 34. -/
def scanStr : List Nat → Option (List Nat × List Nat)
  | [] => none
  | 34 :: rest => some ([], rest)
  | b :: rest => (scanStr rest).map fun p => (b :: p.1, p.2)

/-- Scan a maximal run of decimal digit bytes. -/
def scanDigits : List Nat → List Nat × List Nat
  | [] => ([], [])
  | b :: rest =>
    if 48 ≤ b ∧ b ≤ 57 then
      let p := scanDigits rest
      (b :: p.1, p.2)
    else ([], b :: rest)

/-- Value of a digit-byte string, most significant first. -/
def digitsVal (ds : List Nat) : Nat := ds.foldl (fun acc d => acc * 10 + (d - 48)) 0

mutual

/-- Fuel-bounded recursive-descent parser for the model JSON syntax. -/
def parseVal : Nat → List Nat → Option (Json × List Nat)
  | 0, _ => none
  | _ + 1, 110 :: 117 :: 108 :: 108 :: rest => some (.jnull, rest)
  | _ + 1, 116 :: 114 :: 117 :: 101 :: rest => some (.jbool true, rest)
  | _ + 1, 102 :: 97 :: 108 :: 115 :: 101 :: rest => some (.jbool false, rest)
  | _ + 1, 34 :: rest => (scanStr rest).map fun p => (.jstr p.1, p.2)
  | _ + 1, 45 :: rest =>
    match scanDigits rest with
    | ([], _) => none
    | (ds, rest') => some (.jnum (-(digitsVal ds : Int)), rest')
  | _ + 1, 91 :: 93 :: rest => some (.jarr [], rest)
  | fuel + 1, 91 :: rest =>
    (parseElems fuel rest).map fun p => (.jarr p.1, p.2)
  | _ + 1, 123 :: 125 :: rest => some (.jobj [], rest)
  | fuel + 1, 123 :: rest =>
    (parseFields fuel rest).map fun p => (.jobj p.1, p.2)
  | _ + 1, b :: rest =>
    if 48 ≤ b ∧ b ≤ 57 then
      match scanDigits (b :: rest) with
      | (ds, rest') => some (.jnum (digitsVal ds : Int), rest')
    else none
  | _ + 1, [] => none

/-- Parse one or more comma-separated array elements up to `]`. -/
def parseElems : Nat → List Nat → Option (List Json × List Nat)
  | 0, _ => none
  | fuel + 1, bs => do
    let (v, rest) ← parseVal fuel bs
    match rest with
    | 93 :: rest' => some ([v], rest')
    | 44 :: rest' =>
      (parseElems fuel rest').map fun p => (v :: p.1, p.2)
    | _ => none

/-- Parse one or more comma-separated object fields up to `}` (byte 125). -/
def parseFields : Nat → List Nat → Option (List (List Nat × Json) × List Nat)
  | 0, _ => none
  | fuel + 1, bs =>
    match bs with
    | 34 :: rest => do
      let (k, r1) ← scanStr rest
      match r1 with
      | 58 :: r2 => do
        let (v, r3) ← parseVal fuel r2
        match r3 with
        | 125 :: r4 => some ([(k, v)], r4)
        | 44 :: r4 => (parseFields fuel r4).map fun p => ((k, v) :: p.1, p.2)
        | _ => none
      | _ => none
    | _ => none

end

/-- Model `JSON.parse`: parse a complete JSON text (`none` models a
thrown `SyntaxError`, including trailing garbage). -/
def jsonParseModel (bs : List Nat) : Option Json :=
  match parseVal (bs.length + 1) bs with
  | some (v, []) => some v
  | _ => none

/-! ## JavaScript `Map` as an insertion-ordered association list

`this.store` and `this.expiries` are JS `Map`s.  A `Map` is modelled as
an association list without duplicate keys; `set` on an existing key
replaces the value in place, otherwise appends. -/

/-- `Map.prototype.get` (first matching key; unique when keys are nodup). -/
def mapGet {α β : Type} [DecidableEq α] (m : List (α × β)) (k : α) : Option β :=
  match m with
  | [] => none
  | (k', v) :: rest => if k' = k then some v else mapGet rest k

/-- `Map.prototype.has`. -/
def mapHas {α β : Type} [DecidableEq α] (m : List (α × β)) (k : α) : Bool :=
  (mapGet m k).isSome

/-- `Map.prototype.set`. -/
def mapSet {α β : Type} [DecidableEq α] (m : List (α × β)) (k : α) (v : β) :
    List (α × β) :=
  match m with
  | [] => [(k, v)]
  | (k', v') :: rest => if k' = k then (k, v) :: rest else (k', v') :: mapSet rest k v

/-- `Map.prototype.delete` (the removal; the method's Boolean result is
`mapHas m k`). -/
def mapDelete {α β : Type} [DecidableEq α] (m : List (α × β)) (k : α) :
    List (α × β) :=
  match m with
  | [] => []
  | (k', v') :: rest => if k' = k then rest else (k', v') :: mapDelete rest k

/-! ## The cache state and its operations -/

/-- The mutable state of a `SimpleCache` instance: `this.store` and
`this.expiries` (expiry timestamps in ms).  Keys are canonical strings
(`String(key)`), represented as UTF-8 byte lists. -/
structure SimpleCache (V : Type) where
  store : List (List Nat × V)
  expiries : List (List Nat × Int)

/-- The state right after construction (before any load). -/
def emptyCache (V : Type) : SimpleCache V := ⟨[], []⟩

/-- `set(key, value, ttl)`.  `ttl : Option Int` models the
`typeof ttl === "number"` check; `now = Date.now()`.  (The returned
`"OK"` and the persistence scheduling are modelled separately.) -/
def SimpleCache.set {V : Type} (c : SimpleCache V) (key : List Nat) (value : V)
    (ttl : Option Int) (defaultTtl : Int) (now : Int) : SimpleCache V :=
  let effectiveTtl := ttl.getD defaultTtl
  let store := mapSet c.store key value
  if effectiveTtl > 0 then
    { store := store, expiries := mapSet c.expiries key (now + effectiveTtl * 1000) }
  else
    { store := store, expiries := mapDelete c.expiries key }

/-- `get(key)`: returns the stored value (`some v`) or JS `null`
(`none`), deleting the entry first when it is found expired (lazy
deletion).  The pair is (returned value, state after the call). -/
def SimpleCache.get {V : Type} (c : SimpleCache V) (key : List Nat) (now : Int) :
    Option V × SimpleCache V :=
  if ¬ mapHas c.store key then (none, c)
  else
    match mapGet c.expiries key with
    | some expiryTime =>
      if now ≥ expiryTime then
        (none, { store := mapDelete c.store key, expiries := mapDelete c.expiries key })
      else (mapGet c.store key, c)
    | none => (mapGet c.store key, c)

/-- `del(key)`: returns (1 iff a key was deleted, state after). -/
def SimpleCache.del {V : Type} (c : SimpleCache V) (key : List Nat) :
    Nat × SimpleCache V :=
  let deleted := if mapHas c.store key then 1 else 0
  (deleted, { store := mapDelete c.store key, expiries := mapDelete c.expiries key })

/-- `flush()`: clears both maps (also the store part of `destroy()`,
which calls `flush()` after its final save). -/
def SimpleCache.flush {V : Type} (_ : SimpleCache V) : SimpleCache V := emptyCache V

/-- The keys the `_startCleanup` sweep deletes at time `now`: those
whose indexed expiry has passed (`now >= expiryTime`). -/
def expiredKeysOf {V : Type} (c : SimpleCache V) (now : Int) : List (List Nat) :=
  (c.expiries.filter fun p => now ≥ p.2).map Prod.fst

/-- One tick of the `_startCleanup` interval: evict every key whose
expiry has passed from both maps. -/
def cleanupTick {V : Type} (c : SimpleCache V) (now : Int) : SimpleCache V :=
  { store := c.store.filter fun p => ¬ p.1 ∈ expiredKeysOf c now,
    expiries := c.expiries.filter fun p => ¬ now ≥ p.2 }

/-- The entry-loading loop of `_loadFromBinary`: skip entries already
expired at load time, store the rest, index only positive expiries. -/
def loadEntries {V : Type} (entries : List (SDBEntry V)) (now : Int)
    (c : SimpleCache V) : SimpleCache V :=
  entries.foldl
    (fun (acc : SimpleCache V) (e : SDBEntry V) =>
      if e.expiryTime > 0 ∧ now ≥ e.expiryTime then acc
      else
        { store := mapSet acc.store e.key e.value,
          expiries :=
            if e.expiryTime > 0 then mapSet acc.expiries e.key e.expiryTime
            else acc.expiries })
    c

/-- The filter loop of `_saveToBinary`: the entries handed to
`_serializeBinary` — every stored key, with its expiry (or 0), except
those already expired at save time. -/
def saveEntries {V : Type} (c : SimpleCache V) (now : Int) : List (SDBEntry V) :=
  c.store.filterMap fun kv =>
    let expiryTime := (mapGet c.expiries kv.1).getD 0
    if expiryTime > 0 ∧ now ≥ expiryTime then none
    else some ⟨kv.1, kv.2, expiryTime⟩

/-- `stats()`. -/
def SimpleCache.stats {V : Type} (c : SimpleCache V) : Nat := c.store.length

/-! ## Association-list lemmas for the `Map` model -/

section MapLemmas

variable {α β : Type} [DecidableEq α]

/-- The key sequence of a map. -/
def keysOf {α β : Type} (m : List (α × β)) : List α := m.map Prod.fst

theorem mapGet_cons (p : α × β) (rest : List (α × β)) (k : α) :
    mapGet (p :: rest) k = if p.1 = k then some p.2 else mapGet rest k := rfl

theorem mapSet_cons (p : α × β) (rest : List (α × β)) (k : α) (v : β) :
    mapSet (p :: rest) k v =
      if p.1 = k then (k, v) :: rest else p :: mapSet rest k v := rfl

theorem mapDelete_cons (p : α × β) (rest : List (α × β)) (k : α) :
    mapDelete (p :: rest) k = if p.1 = k then rest else p :: mapDelete rest k := rfl

theorem mapGet_mapSet_self (m : List (α × β)) (k : α) (v : β) :
    mapGet (mapSet m k v) k = some v := by
  induction m with
  | nil => simp [mapSet, mapGet]
  | cons p rest ih =>
    rw [mapSet_cons]
    by_cases h : p.1 = k
    · rw [if_pos h, mapGet_cons, if_pos rfl]
    · rw [if_neg h, mapGet_cons, if_neg h, ih]

theorem mapGet_mapSet_ne (m : List (α × β)) (k k' : α) (v : β) (h : k' ≠ k) :
    mapGet (mapSet m k v) k' = mapGet m k' := by
  have h' : ¬ k = k' := fun e => h e.symm
  induction m with
  | nil => simp [mapSet, mapGet, h']
  | cons p rest ih =>
    rw [mapSet_cons]
    by_cases hp : p.1 = k
    · rw [if_pos hp, mapGet_cons, if_neg h', mapGet_cons, if_neg (hp ▸ h')]
    · rw [if_neg hp, mapGet_cons, mapGet_cons, ih]

theorem mapGet_mapDelete_ne (m : List (α × β)) (k k' : α) (h : k' ≠ k) :
    mapGet (mapDelete m k) k' = mapGet m k' := by
  induction m with
  | nil => rfl
  | cons p rest ih =>
    rw [mapDelete_cons]
    by_cases hp : p.1 = k
    · rw [if_pos hp, mapGet_cons, if_neg (by rw [hp]; exact fun e => h e.symm)]
    · rw [if_neg hp, mapGet_cons, mapGet_cons, ih]

theorem mapGet_eq_none_iff (m : List (α × β)) (k : α) :
    mapGet m k = none ↔ k ∉ keysOf m := by
  induction m with
  | nil => simp [mapGet, keysOf]
  | cons p rest ih =>
    rw [mapGet_cons]
    by_cases hp : p.1 = k
    · simp [hp, keysOf]
    · have hp' : ¬ k = p.1 := fun e => hp e.symm
      simp [hp, hp', keysOf, ih]

theorem mapGet_mem (m : List (α × β)) (k : α) (v : β) (h : mapGet m k = some v) :
    (k, v) ∈ m := by
  induction m with
  | nil => simp [mapGet] at h
  | cons p rest ih =>
    rw [mapGet_cons] at h
    by_cases hp : p.1 = k
    · rw [if_pos hp] at h
      obtain rfl : p.2 = v := by injection h
      subst hp
      exact List.mem_cons_self p rest
    · rw [if_neg hp] at h
      exact List.mem_cons_of_mem p (ih h)

theorem keysOf_mapDelete_sublist (m : List (α × β)) (k : α) :
    (keysOf (mapDelete m k)).Sublist (keysOf m) := by
  induction m with
  | nil => exact List.Sublist.refl _
  | cons p rest ih =>
    rw [mapDelete_cons]
    by_cases hp : p.1 = k
    · rw [if_pos hp]
      exact (List.Sublist.refl _).cons _
    · rw [if_neg hp]
      exact ih.cons₂ _

theorem mapGet_mapDelete_self (m : List (α × β)) (k : α)
    (hnd : (keysOf m).Nodup) : mapGet (mapDelete m k) k = none := by
  induction m with
  | nil => rfl
  | cons p rest ih =>
    simp only [keysOf, List.map_cons, List.nodup_cons] at hnd
    rw [mapDelete_cons]
    by_cases hp : p.1 = k
    · rw [if_pos hp, mapGet_eq_none_iff]
      rw [hp] at hnd
      exact hnd.1
    · rw [if_neg hp, mapGet_cons, if_neg hp]
      exact ih hnd.2

theorem mapHas_mapDelete_imp (m : List (α × β)) (k k' : α)
    (h : mapHas (mapDelete m k) k') : mapHas m k' := by
  by_cases hk : k' = k
  · subst hk
    simp only [mapHas] at h ⊢
    induction m with
    | nil => simp [mapDelete, mapGet] at h
    | cons p rest ih =>
      rw [mapDelete_cons] at h
      rw [mapGet_cons]
      by_cases hp : p.1 = k'
      · rw [if_pos hp]
        rfl
      · rw [if_neg hp, mapGet_cons, if_neg hp] at h
        rw [if_neg hp]
        exact ih h
  · simpa [mapHas, mapGet_mapDelete_ne m k k' hk] using h

theorem mapHas_mapSet (m : List (α × β)) (k k' : α) (v : β) :
    mapHas (mapSet m k v) k' = true ↔ k' = k ∨ mapHas m k' = true := by
  by_cases hk : k' = k
  · subst hk
    simp [mapHas, mapGet_mapSet_self]
  · simp [mapHas, mapGet_mapSet_ne m k k' v hk, hk]

theorem mapGet_filter_eq (m : List (α × β)) (k : α) (q : α × β → Bool)
    (hq : ∀ p : α × β, p.1 = k → q p = true) :
    mapGet (m.filter q) k = mapGet m k := by
  induction m with
  | nil => rfl
  | cons p rest ih =>
    by_cases hp : p.1 = k
    · rw [List.filter_cons, if_pos (hq p hp), mapGet_cons, mapGet_cons, ih]
    · by_cases hqp : q p = true
      · rw [List.filter_cons, if_pos hqp, mapGet_cons, mapGet_cons, if_neg hp, if_neg hp, ih]
      · rw [List.filter_cons, if_neg (by simpa using hqp), ih, mapGet_cons, if_neg hp]

end MapLemmas

/-! ## C2: the save filter -/

/-- C2.  At every save invocation at time `now`, `_saveToBinary` hands
the codec exactly the live entries: a stored key whose expiry timestamp
is positive and not in the future is absent from the encoded snapshot's
entry sequence, and a stored key whose expiry is absent (stored as 0) or
still in the future is present in it, with its value and expiry. -/
theorem saveEntries_filters_expired {V : Type} (c : SimpleCache V) (now : Int)
    (k : List Nat) :
    (0 < (mapGet c.expiries k).getD 0 ∧ (mapGet c.expiries k).getD 0 ≤ now →
      ∀ ent ∈ saveEntries c now, ent.key ≠ k) ∧
    (∀ v, mapGet c.store k = some v →
      ((mapGet c.expiries k).getD 0 = 0 ∨ now < (mapGet c.expiries k).getD 0) →
      (⟨k, v, (mapGet c.expiries k).getD 0⟩ : SDBEntry V) ∈ saveEntries c now) := by
  constructor
  · rintro ⟨h1, h2⟩ ent hent hkey
    rw [saveEntries, List.mem_filterMap] at hent
    obtain ⟨kv, hkv, hf⟩ := hent
    simp only at hf
    by_cases hcond :
        (mapGet c.expiries kv.1).getD 0 > 0 ∧ now ≥ (mapGet c.expiries kv.1).getD 0
    · rw [if_pos hcond] at hf
      exact Option.noConfusion hf
    · rw [if_neg hcond] at hf
      injection hf with hf
      rw [← hf] at hkey
      simp only at hkey
      rw [hkey] at hcond
      exact hcond ⟨h1, by omega⟩
  · intro v hv hlive
    rw [saveEntries, List.mem_filterMap]
    refine ⟨(k, v), mapGet_mem _ _ _ hv, ?_⟩
    simp only
    rw [if_neg ?_]
    rcases hlive with h | h
    · rw [h]
      rintro ⟨h0, -⟩
      exact absurd h0 (by omega)
    · rintro ⟨-, hge⟩
      omega

/-- Witness for C2 on a concrete store: key `[98]` expired at 500 is
absent from the save at 1000, key `[97]` permanent is present. -/
theorem saveEntries_filters_expired_witness :
    (∀ ent ∈
        saveEntries
          (⟨[([97], Json.jnum 7), ([98], Json.jnum 8)], [([98], 500)]⟩ : SimpleCache Json)
          1000,
      ent.key ≠ [98]) ∧
    (⟨[97], Json.jnum 7, 0⟩ : SDBEntry Json) ∈
      saveEntries
        (⟨[([97], Json.jnum 7), ([98], Json.jnum 8)], [([98], 500)]⟩ : SimpleCache Json)
        1000 :=
  ⟨(saveEntries_filters_expired _ 1000 [98]).1 (by decide),
   (saveEntries_filters_expired _ 1000 [97]).2 (Json.jnum 7) rfl (Or.inl rfl)⟩

/-! ## C8: the expiry-index invariant -/

section Invariant

variable {α β : Type} [DecidableEq α]

theorem mapHas_filter_imp (m : List (α × β)) (q : α × β → Bool) (k : α)
    (h : mapHas (m.filter q) k) : mapHas m k := by
  induction m with
  | nil => exact h
  | cons p rest ih =>
    by_cases hq : q p = true
    · rw [List.filter_cons, if_pos hq] at h
      simp only [mapHas, mapGet_cons] at h ⊢
      by_cases hp : p.1 = k
      · simp [hp]
      · rw [if_neg hp] at h ⊢
        exact ih h
    · rw [List.filter_cons, if_neg (by simpa using hq)] at h
      simp only [mapHas, mapGet_cons]
      by_cases hp : p.1 = k
      · simp [hp]
      · rw [if_neg hp]
        exact ih h

theorem keysOf_mapSet_mem (m : List (α × β)) (k k' : α) (v : β)
    (h : k' ∈ keysOf (mapSet m k v)) : k' = k ∨ k' ∈ keysOf m := by
  induction m with
  | nil => simpa [mapSet, keysOf] using h
  | cons p rest ih =>
    rw [mapSet_cons] at h
    by_cases hp : p.1 = k
    · rw [if_pos hp] at h
      rcases List.mem_cons.1 h with h | h
      · exact Or.inl h
      · exact Or.inr (List.mem_cons_of_mem _ h)
    · rw [if_neg hp] at h
      rcases List.mem_cons.1 h with h | h
      · exact Or.inr (List.mem_cons.2 (Or.inl h))
      · rcases ih h with h | h
        · exact Or.inl h
        · exact Or.inr (List.mem_cons_of_mem _ h)

theorem keysOf_mapSet_nodup (m : List (α × β)) (k : α) (v : β)
    (hnd : (keysOf m).Nodup) : (keysOf (mapSet m k v)).Nodup := by
  induction m with
  | nil => simp [mapSet, keysOf]
  | cons p rest ih =>
    simp only [keysOf, List.map_cons, List.nodup_cons] at hnd
    rw [mapSet_cons]
    by_cases hp : p.1 = k
    · rw [if_pos hp]
      simp only [keysOf, List.map_cons, List.nodup_cons]
      exact ⟨by rw [← hp]; exact hnd.1, hnd.2⟩
    · rw [if_neg hp]
      simp only [keysOf, List.map_cons, List.nodup_cons]
      refine ⟨fun hmem => ?_, ih hnd.2⟩
      rcases keysOf_mapSet_mem rest k p.1 v hmem with h | h
      · exact hp h
      · exact hnd.1 h

omit [DecidableEq α] in
theorem pair_mem_nodup_unique (m : List (α × β)) (k : α) (v v' : β)
    (hnd : (keysOf m).Nodup) (h : (k, v) ∈ m) (h' : (k, v') ∈ m) : v = v' := by
  induction m with
  | nil => exact absurd h (List.not_mem_nil _)
  | cons p rest ih =>
    simp only [keysOf, List.map_cons, List.nodup_cons] at hnd
    rcases List.mem_cons.1 h with rfl | hm
    · rcases List.mem_cons.1 h' with he | hm'
      · exact (congrArg Prod.snd he).symm
      · exact absurd (List.mem_map_of_mem Prod.fst hm') (by simpa using hnd.1)
    · rcases List.mem_cons.1 h' with rfl | hm'
      · exact absurd (List.mem_map_of_mem Prod.fst hm) (by simpa using hnd.1)
      · exact ih hnd.2 hm hm'

end Invariant

/-- The key-set invariant of the data model: every key in the expiry
index is also in the value store. -/
def expiryInvariant {V : Type} (c : SimpleCache V) : Prop :=
  ∀ k, mapHas c.expiries k → mapHas c.store k

/-- C8.  One theorem covering every operation: `set`, `get`, `del`,
`flush` (hence also `destroy`, which ends in `flush()`), the periodic
cleanup sweep, and snapshot loading all preserve the invariant that a
key present in the expiry index is present in the store; moreover a key
absent from the expiry index is permanent: neither `get`'s lazy
deletion nor the sweep ever removes it.  (`keysOf c.expiries` is nodup
because `this.expiries` is a JS `Map`.) -/
theorem expiryInvariant_preserved {V : Type} (c : SimpleCache V) (now : Int)
    (key : List Nat) (value : V) (ttl : Option Int) (defaultTtl : Int)
    (hInv : expiryInvariant c) (hnd : (keysOf c.expiries).Nodup) :
    expiryInvariant (c.set key value ttl defaultTtl now) ∧
    expiryInvariant (c.get key now).2 ∧
    expiryInvariant (c.del key).2 ∧
    expiryInvariant c.flush ∧
    expiryInvariant (cleanupTick c now) ∧
    (∀ entries, expiryInvariant (loadEntries entries now c)) ∧
    (mapGet c.expiries key = none → (c.get key now).2 = c) ∧
    (mapGet c.expiries key = none →
      mapGet (cleanupTick c now).store key = mapGet c.store key) := by
  refine ⟨?_, ?_, ?_, ?_, ?_, ?_, ?_, ?_⟩
  · -- set
    rw [SimpleCache.set]
    by_cases ht : ttl.getD defaultTtl > 0
    · rw [if_pos ht]
      intro k hk
      rcases (mapHas_mapSet _ _ _ _).1 hk with rfl | hk'
      · exact (mapHas_mapSet _ _ _ _).2 (Or.inl rfl)
      · exact (mapHas_mapSet _ _ _ _).2 (Or.inr (hInv k hk'))
    · rw [if_neg ht]
      intro k hk
      exact (mapHas_mapSet _ _ _ _).2 (Or.inr (hInv k (mapHas_mapDelete_imp _ _ _ hk)))
  · -- get (lazy deletion)
    rw [SimpleCache.get]
    by_cases hs : ¬ mapHas c.store key
    · rw [if_pos hs]
      exact hInv
    · rw [if_neg hs]
      match hexp : mapGet c.expiries key with
      | some expiryTime =>
        dsimp only
        by_cases hge : now ≥ expiryTime
        · rw [if_pos hge]
          intro k hk
          by_cases hkk : k = key
          · subst hkk
            rw [mapHas, mapGet_mapDelete_self _ _ hnd] at hk
            exact absurd hk (by simp)
          · rw [mapHas, mapGet_mapDelete_ne _ _ _ hkk] at hk
            rw [mapHas, mapGet_mapDelete_ne _ _ _ hkk]
            exact hInv k hk
        · rw [if_neg hge]
          exact hInv
      | none => exact hInv
  · -- del
    rw [SimpleCache.del]
    intro k hk
    simp only at hk ⊢
    by_cases hkk : k = key
    · subst hkk
      rw [mapHas, mapGet_mapDelete_self _ _ hnd] at hk
      exact absurd hk (by simp)
    · rw [mapHas, mapGet_mapDelete_ne _ _ _ hkk] at hk
      rw [mapHas, mapGet_mapDelete_ne _ _ _ hkk]
      exact hInv k hk
  · -- flush
    intro k hk
    exact absurd hk (by simp [SimpleCache.flush, emptyCache, mapHas, mapGet])
  · -- cleanup sweep
    intro k hk
    rw [cleanupTick] at hk
    simp only at hk
    have hk' := mapHas_filter_imp _ _ _ hk
    have hstore := hInv k hk'
    -- k is not among the expired keys: its surviving index entry is unique
    have hnm : k ∉ expiredKeysOf c now := by
      intro hmem
      simp only [expiredKeysOf, List.mem_map] at hmem
      obtain ⟨p, hpf, hpk⟩ := hmem
      have hpm := List.mem_filter.1 hpf
      rw [mapHas] at hk
      obtain ⟨e, hget⟩ := Option.isSome_iff_exists.1 hk
      have hmem₂ := List.mem_filter.1 (mapGet_mem _ _ _ hget)
      have hpe : p.2 = e := pair_mem_nodup_unique c.expiries k p.2 e hnd
        (by rw [← hpk]; exact hpm.1) hmem₂.1
      have h1 : now ≥ p.2 := by simpa using hpm.2
      have h2 : ¬ now ≥ e := by simpa using hmem₂.2
      rw [hpe] at h1
      exact h2 h1
    rw [cleanupTick]
    simp only [mapHas]
    rw [mapGet_filter_eq]
    · exact hstore
    · intro p hp
      simp [hp, hnm]
  · -- snapshot load
    intro entries
    induction entries generalizing c with
    | nil => exact hInv
    | cons e rest ih =>
      rw [loadEntries, List.foldl_cons]
      by_cases hc : e.expiryTime > 0 ∧ now ≥ e.expiryTime
      · rw [if_pos hc]
        exact ih c hInv hnd
      · rw [if_neg hc]
        by_cases hp : e.expiryTime > 0
        · rw [if_pos hp]
          refine ih _ ?_ ?_
          · intro k hk
            rcases (mapHas_mapSet _ _ _ _).1 hk with rfl | hk'
            · exact (mapHas_mapSet _ _ _ _).2 (Or.inl rfl)
            · exact (mapHas_mapSet _ _ _ _).2 (Or.inr (hInv k hk'))
          · exact keysOf_mapSet_nodup _ _ _ hnd
        · rw [if_neg hp]
          refine ih _ ?_ hnd
          intro k hk
          exact (mapHas_mapSet _ _ _ _).2 (Or.inr (hInv k hk))
  · -- permanence under get
    intro hnone
    rw [SimpleCache.get]
    by_cases hs : ¬ mapHas c.store key
    · rw [if_pos hs]
    · rw [if_neg hs, hnone]
  · -- permanence under the sweep
    intro hnone
    have hnm : key ∉ expiredKeysOf c now := by
      intro hmem
      simp only [expiredKeysOf, List.mem_map] at hmem
      obtain ⟨p, hpf, hpk⟩ := hmem
      have := List.mem_map_of_mem Prod.fst (List.mem_filter.1 hpf).1
      rw [hpk] at this
      exact (mapGet_eq_none_iff _ _).1 hnone this
    rw [cleanupTick]
    simp only
    rw [mapGet_filter_eq]
    intro p hp
    simp [hp, hnm]

/-! ## C3: `_loadFromBinary` -/

/-- `_loadFromBinary()`: decode the snapshot file (if any) and load the
non-expired entries into the freshly-constructed (empty) store; any
decode error is caught (`catch`), leaving the store empty. `file` is
the content of `this.persistPath` (`none` = file does not exist). -/
def loadFromBinary {V : Type} (parse : List Nat → Option V)
    (file : Option (List Nat)) (now : Int) : SimpleCache V :=
  match file with
  | none => emptyCache V
  | some buffer =>
    match deserializeBinary parse buffer with
    | .error _ => emptyCache V
    | .ok entries => loadEntries entries now (emptyCache V)

theorem loadEntries_cons {V : Type} (a : SDBEntry V) (rest : List (SDBEntry V))
    (now : Int) (c : SimpleCache V) :
    loadEntries (a :: rest) now c =
      loadEntries rest now
        (if a.expiryTime > 0 ∧ now ≥ a.expiryTime then c
         else
           { store := mapSet c.store a.key a.value,
             expiries :=
               if a.expiryTime > 0 then mapSet c.expiries a.key a.expiryTime
               else c.expiries }) := rfl

theorem loadEntries_lookup_of_not_mem {V : Type} (entries : List (SDBEntry V))
    (now : Int) (c : SimpleCache V) (k : List Nat)
    (hk : ∀ e ∈ entries, e.key ≠ k) :
    mapGet (loadEntries entries now c).store k = mapGet c.store k ∧
    mapGet (loadEntries entries now c).expiries k = mapGet c.expiries k := by
  induction entries generalizing c with
  | nil => exact ⟨rfl, rfl⟩
  | cons a rest ih =>
    have ha : k ≠ a.key := fun h => hk a (List.mem_cons_self a rest) h.symm
    have hrest : ∀ e ∈ rest, e.key ≠ k := fun e he => hk e (List.mem_cons_of_mem a he)
    rw [loadEntries_cons]
    by_cases hc : a.expiryTime > 0 ∧ now ≥ a.expiryTime
    · rw [if_pos hc]
      exact ih c hrest
    · rw [if_neg hc]
      obtain ⟨h1, h2⟩ := ih _ hrest
      rw [h1, h2]
      by_cases hp : a.expiryTime > 0
      · rw [if_pos hp]
        exact ⟨mapGet_mapSet_ne _ _ _ _ ha, mapGet_mapSet_ne _ _ _ _ ha⟩
      · rw [if_neg hp]
        exact ⟨mapGet_mapSet_ne _ _ _ _ ha, rfl⟩

theorem loadEntries_mem_lookup {V : Type} (entries : List (SDBEntry V)) (now : Int)
    (c : SimpleCache V) (e : SDBEntry V) (he : e ∈ entries)
    (hnd : (entries.map SDBEntry.key).Nodup)
    (hcs : mapGet c.store e.key = none) (hce : mapGet c.expiries e.key = none) :
    (0 < e.expiryTime ∧ now ≥ e.expiryTime →
      mapGet (loadEntries entries now c).store e.key = none ∧
      mapGet (loadEntries entries now c).expiries e.key = none) ∧
    (e.expiryTime = 0 →
      mapGet (loadEntries entries now c).store e.key = some e.value ∧
      mapGet (loadEntries entries now c).expiries e.key = none) ∧
    (0 < e.expiryTime ∧ now < e.expiryTime →
      mapGet (loadEntries entries now c).store e.key = some e.value ∧
      mapGet (loadEntries entries now c).expiries e.key = some e.expiryTime) := by
  induction entries generalizing c with
  | nil => exact absurd he (List.not_mem_nil e)
  | cons a rest ih =>
    simp only [List.map_cons, List.nodup_cons] at hnd
    rcases List.mem_cons.1 he with rfl | hmem
    · -- e is the head entry; the tail never touches e.key
      have hrest : ∀ e' ∈ rest, e'.key ≠ e.key := by
        intro e' he' h
        exact hnd.1 (h ▸ List.mem_map_of_mem SDBEntry.key he')
      rw [loadEntries_cons]
      by_cases hc : e.expiryTime > 0 ∧ now ≥ e.expiryTime
      · rw [if_pos hc]
        obtain ⟨h1, h2⟩ := loadEntries_lookup_of_not_mem rest now c e.key hrest
        rw [h1, h2]
        exact ⟨fun _ => ⟨hcs, hce⟩, fun h0 => absurd (h0 ▸ hc.1) (by omega),
          fun hlt => absurd hlt.2 (by omega)⟩
      · rw [if_neg hc]
        by_cases hp : e.expiryTime > 0
        · rw [if_pos hp]
          obtain ⟨h1, h2⟩ :=
            loadEntries_lookup_of_not_mem rest now
              ⟨mapSet c.store e.key e.value, mapSet c.expiries e.key e.expiryTime⟩
              e.key hrest
          rw [h1, h2]
          exact ⟨fun hex => absurd hex.2 (by omega), fun h0 => absurd (h0 ▸ hp) (by omega),
            fun _ => ⟨mapGet_mapSet_self _ _ _, mapGet_mapSet_self _ _ _⟩⟩
        · rw [if_neg hp]
          obtain ⟨h1, h2⟩ :=
            loadEntries_lookup_of_not_mem rest now
              ⟨mapSet c.store e.key e.value, c.expiries⟩ e.key hrest
          rw [h1, h2]
          exact ⟨fun hex => absurd hex.1 (by omega),
            fun _ => ⟨mapGet_mapSet_self _ _ _, hce⟩,
            fun hlt => absurd hlt.1 (by omega)⟩
    · -- e is in the tail; the head entry has a different key
      have hne : e.key ≠ a.key := by
        intro h
        exact hnd.1 (h.symm ▸ List.mem_map_of_mem SDBEntry.key hmem)
      rw [loadEntries_cons]
      by_cases hc : a.expiryTime > 0 ∧ now ≥ a.expiryTime
      · rw [if_pos hc]
        exact ih c hmem hnd.2 hcs hce
      · rw [if_neg hc]
        by_cases hp : a.expiryTime > 0
        · rw [if_pos hp]
          refine ih _ hmem hnd.2 ?_ ?_
          · rw [show (⟨mapSet c.store a.key a.value,
                mapSet c.expiries a.key a.expiryTime⟩ : SimpleCache V).store =
                mapSet c.store a.key a.value from rfl,
              mapGet_mapSet_ne _ _ _ _ hne]
            exact hcs
          · rw [show (⟨mapSet c.store a.key a.value,
                mapSet c.expiries a.key a.expiryTime⟩ : SimpleCache V).expiries =
                mapSet c.expiries a.key a.expiryTime from rfl,
              mapGet_mapSet_ne _ _ _ _ hne]
            exact hce
        · rw [if_neg hp]
          refine ih _ hmem hnd.2 ?_ hce
          rw [show (⟨mapSet c.store a.key a.value, c.expiries⟩ : SimpleCache V).store =
              mapSet c.store a.key a.value from rfl,
            mapGet_mapSet_ne _ _ _ _ hne]
          exact hcs

/-- C3 (amended: for snapshot buffers whose decoded entries have
pairwise-distinct keys — when several decoded entries share a key, the
later unexpired ones overwrite the earlier, see the counterexample).
Loading a decoded snapshot at time `now` drops exactly the entries with
a positive, passed expiry; permanent and unexpired entries are present
with their key, value and (when positive) expiry. -/
theorem loadFromBinary_filters_expired {V : Type} (parse : List Nat → Option V)
    (buf : List Nat) (now : Int) (entries : List (SDBEntry V))
    (hdec : deserializeBinary parse buf = .ok entries)
    (hnd : (entries.map SDBEntry.key).Nodup) :
    ∀ e ∈ entries,
      (0 < e.expiryTime ∧ now ≥ e.expiryTime →
        mapGet (loadFromBinary parse (some buf) now).store e.key = none ∧
        mapGet (loadFromBinary parse (some buf) now).expiries e.key = none) ∧
      (e.expiryTime = 0 →
        mapGet (loadFromBinary parse (some buf) now).store e.key = some e.value ∧
        mapGet (loadFromBinary parse (some buf) now).expiries e.key = none) ∧
      (0 < e.expiryTime ∧ now < e.expiryTime →
        mapGet (loadFromBinary parse (some buf) now).store e.key = some e.value ∧
        mapGet (loadFromBinary parse (some buf) now).expiries e.key = some e.expiryTime) := by
  intro e he
  have hload : loadFromBinary parse (some buf) now = loadEntries entries now (emptyCache V) := by
    simp only [loadFromBinary, hdec]
  rw [hload]
  exact loadEntries_mem_lookup entries now (emptyCache V) e he hnd rfl rfl

/-- Witness for C3 (amended) on a concrete snapshot: key `[97]`
(permanent) is loaded, key `[98]` (expired at 500 < 1000) is dropped. -/
theorem loadFromBinary_filters_expired_witness :
    mapGet
        ((loadFromBinary jsonParseModel
            (some
              [83, 68, 66, 1, 2, 0, 0, 0, 0, 0, 0, 0,
               1, 0, 97, 0, 0, 0, 0, 0, 0, 0, 0, 1, 0, 0, 0, 49,
               1, 0, 98, 244, 1, 0, 0, 0, 0, 0, 0, 1, 0, 0, 0, 50])
            1000 : SimpleCache Json)).store [97] = some (Json.jnum 1) ∧
    mapGet
        ((loadFromBinary jsonParseModel
            (some
              [83, 68, 66, 1, 2, 0, 0, 0, 0, 0, 0, 0,
               1, 0, 97, 0, 0, 0, 0, 0, 0, 0, 0, 1, 0, 0, 0, 49,
               1, 0, 98, 244, 1, 0, 0, 0, 0, 0, 0, 1, 0, 0, 0, 50])
            1000 : SimpleCache Json)).store [98] = none :=
  by
  have hdec : deserializeBinary jsonParseModel
      [83, 68, 66, 1, 2, 0, 0, 0, 0, 0, 0, 0,
       1, 0, 97, 0, 0, 0, 0, 0, 0, 0, 0, 1, 0, 0, 0, 49,
       1, 0, 98, 244, 1, 0, 0, 0, 0, 0, 0, 1, 0, 0, 0, 50] =
      .ok [⟨[97], Json.jnum 1, 0⟩, ⟨[98], Json.jnum 2, 500⟩] := rfl
  exact
    ⟨((loadFromBinary_filters_expired jsonParseModel
        [83, 68, 66, 1, 2, 0, 0, 0, 0, 0, 0, 0,
         1, 0, 97, 0, 0, 0, 0, 0, 0, 0, 0, 1, 0, 0, 0, 49,
         1, 0, 98, 244, 1, 0, 0, 0, 0, 0, 0, 1, 0, 0, 0, 50] 1000
        [⟨[97], Json.jnum 1, 0⟩, ⟨[98], Json.jnum 2, 500⟩] hdec (by decide)
        ⟨[97], Json.jnum 1, 0⟩ (by simp)).2.1 rfl).1,
     ((loadFromBinary_filters_expired jsonParseModel
        [83, 68, 66, 1, 2, 0, 0, 0, 0, 0, 0, 0,
         1, 0, 97, 0, 0, 0, 0, 0, 0, 0, 0, 1, 0, 0, 0, 49,
         1, 0, 98, 244, 1, 0, 0, 0, 0, 0, 0, 1, 0, 0, 0, 50] 1000
        [⟨[97], Json.jnum 1, 0⟩, ⟨[98], Json.jnum 2, 500⟩] hdec (by decide)
        ⟨[98], Json.jnum 2, 500⟩ (by simp)).1 (by constructor <;> decide)).1⟩

/-- Counterexample to C3 as stated: a decodable snapshot buffer can
carry two entries with the same key; the first (permanent, hence
"present" per the claim) is NOT present with its value after loading —
the later entry overwrote it. -/
theorem loadFromBinary_duplicate_key_counterexample :
    deserializeBinary jsonParseModel
        [83, 68, 66, 1, 2, 0, 0, 0, 0, 0, 0, 0,
         1, 0, 97, 0, 0, 0, 0, 0, 0, 0, 0, 1, 0, 0, 0, 49,
         1, 0, 97, 0, 0, 0, 0, 0, 0, 0, 0, 1, 0, 0, 0, 50] =
      .ok [⟨[97], Json.jnum 1, 0⟩, ⟨[97], Json.jnum 2, 0⟩] ∧
    (⟨[97], Json.jnum 1, 0⟩ : SDBEntry Json).expiryTime = 0 ∧
    mapGet
        ((loadFromBinary jsonParseModel
            (some
              [83, 68, 66, 1, 2, 0, 0, 0, 0, 0, 0, 0,
               1, 0, 97, 0, 0, 0, 0, 0, 0, 0, 0, 1, 0, 0, 0, 49,
               1, 0, 97, 0, 0, 0, 0, 0, 0, 0, 0, 1, 0, 0, 0, 50])
            1000 : SimpleCache Json)).store [97] ≠
      some (Json.jnum 1) := by
  refine ⟨rfl, rfl, ?_⟩
  intro h
  rw [show mapGet
        ((loadFromBinary jsonParseModel
            (some
              [83, 68, 66, 1, 2, 0, 0, 0, 0, 0, 0, 0,
               1, 0, 97, 0, 0, 0, 0, 0, 0, 0, 0, 1, 0, 0, 0, 49,
               1, 0, 97, 0, 0, 0, 0, 0, 0, 0, 0, 1, 0, 0, 0, 50])
            1000 : SimpleCache Json)).store [97] = some (Json.jnum 2) from rfl] at h
  injection h with h
  injection h with h
  exact absurd h (by decide)

/-! ## C7: magic / version failures and local recovery -/

/-- C7 (amended: the magic comparison happens after the `'ascii'`
decode, which strips the high bit of each byte — so "first 3 bytes not
`'SDB'`" must be read modulo bit 7, see the counterexample).  When the
masked first three bytes are not `SDB`, decoding fails with the
corrupt-format error and `_loadFromBinary` catches it, leaving the
freshly-constructed store empty (no crash); likewise an unsupported
version byte fails with the unsupported-version error and is caught. -/
theorem deserializeBinary_magic_version_recovery {V : Type}
    (parse : List Nat → Option V) (buf : List Nat) (now : Int) :
    ((buf.take 3).map (fun b => b % 128) ≠ [83, 68, 66] →
      deserializeBinary parse buf = .error .badMagic ∧
      (loadFromBinary parse (some buf) now : SimpleCache V) = emptyCache V) ∧
    (∀ v rest, (buf.take 3).map (fun b => b % 128) = [83, 68, 66] →
      buf.drop 3 = v :: rest → v ≠ 1 →
      deserializeBinary parse buf = .error (.badVersion v) ∧
      (loadFromBinary parse (some buf) now : SimpleCache V) = emptyCache V) := by
  constructor
  · intro hmagic
    have hdec : deserializeBinary parse buf = (.error .badMagic : Except DecodeErr (List (SDBEntry V))) := by
      rw [deserializeBinary, if_neg hmagic]
    exact ⟨hdec, by simp only [loadFromBinary, hdec]⟩
  · intro v rest hmagic hdrop hv
    have hdec : deserializeBinary parse buf =
        (.error (.badVersion v) : Except DecodeErr (List (SDBEntry V))) := by
      rw [deserializeBinary, if_pos hmagic, hdrop]
      simp only [readField, readLE_one]
      rw [if_neg hv]
    exact ⟨hdec, by simp only [loadFromBinary, hdec]⟩

/-- Witness for C7 (amended): a zeroed 3-byte buffer fails the magic
check, and `SDB` followed by version byte 2 fails the version check;
both leave the freshly-loaded store empty. -/
theorem deserializeBinary_magic_version_recovery_witness :
    (deserializeBinary jsonParseModel [0, 0, 0] =
        (.error .badMagic : Except DecodeErr (List (SDBEntry Json))) ∧
      (loadFromBinary jsonParseModel (some [0, 0, 0]) 0 : SimpleCache Json) =
        emptyCache Json) ∧
    (deserializeBinary jsonParseModel [83, 68, 66, 2] =
        (.error (.badVersion 2) : Except DecodeErr (List (SDBEntry Json))) ∧
      (loadFromBinary jsonParseModel (some [83, 68, 66, 2]) 0 : SimpleCache Json) =
        emptyCache Json) :=
  ⟨(deserializeBinary_magic_version_recovery jsonParseModel [0, 0, 0] 0).1 (by decide),
   (deserializeBinary_magic_version_recovery jsonParseModel [83, 68, 66, 2] 0).2
     2 [] (by decide) rfl (by decide)⟩

/-- Counterexample to C7 as stated: the buffer starting with bytes
`211, 68, 66` does not start with `'SDB'` (= `83, 68, 66`), yet the
`'ascii'` decode strips the high bit (`211 % 128 = 83`), the magic
check passes, and decoding SUCCEEDS instead of failing with a
corrupt-format error. -/
theorem deserializeBinary_magic_counterexample :
    [211, 68, 66].take 3 ≠ [83, 68, 66] ∧
    deserializeBinary jsonParseModel [211, 68, 66, 1, 0, 0, 0, 0] =
      .ok ([] : List (SDBEntry Json)) :=
  ⟨by decide, rfl⟩

/-! ## C4: truncated buffers -/

theorem readLE_eq_none (k : Nat) (l : List Nat) (h : l.length < k) :
    readLE k l = none := by
  induction k generalizing l with
  | zero => omega
  | succ k ih =>
    match l with
    | [] => rfl
    | b :: rest =>
      simp only [readLE, ih rest (by simpa using h), Option.map_none']

/-- C4 (amended).  A fixed-width integer field beginning past the end
of the buffer makes decoding fail: any buffer shorter than the 8
mandatory header bytes (magic, version, entry count) is rejected, and
with at least one entry still to read, a missing key-length field or a
declared key length running past the end (which clamps the key and
leaves nothing for the expiry field) is rejected.  The 4 reserved
header bytes and the byte regions of keys and values are, however,
CLAMPED rather than bounds-checked — see the counterexample, where a
buffer shorter than the declared 12-byte header decodes successfully. -/
theorem deserializeBinary_truncation_errors {V : Type}
    (parse : List Nat → Option V) :
    (∀ buf : List Nat, buf.length < 8 →
      ∃ err, deserializeBinary parse buf =
        (.error err : Except DecodeErr (List (SDBEntry V)))) ∧
    (∀ (n : Nat) (rem : List Nat), rem.length < 2 →
      decodeEntries parse (n + 1) rem =
        (.error .outOfRange : Except DecodeErr (List (SDBEntry V)))) ∧
    (∀ (n b0 b1 : Nat) (rest : List Nat), rest.length < b0 + 256 * b1 →
      decodeEntries parse (n + 1) (b0 :: b1 :: rest) =
        (.error .outOfRange : Except DecodeErr (List (SDBEntry V)))) := by
  refine ⟨?_, ?_, ?_⟩
  · intro buf hlen
    by_cases hmagic : (buf.take 3).map (fun b => b % 128) = [83, 68, 66]
    · have h3 : 3 ≤ buf.length := by
        have := congrArg List.length hmagic
        simp only [List.length_map, List.length_take, List.length_cons,
          List.length_nil] at this
        omega
      match hd : buf.drop 3 with
      | [] =>
        refine ⟨.outOfRange, ?_⟩
        rw [deserializeBinary, if_pos hmagic, hd]
        rfl
      | v :: rest =>
        by_cases hv : v = 1
        · refine ⟨.outOfRange, ?_⟩
          rw [deserializeBinary, if_pos hmagic, hd]
          simp only [readField, readLE_one, if_pos hv]
          have h4 : (buf.drop 4).length < 4 := by
            rw [List.length_drop]
            omega
          simp only [readLE_eq_none 4 _ h4]
        · refine ⟨.badVersion v, ?_⟩
          rw [deserializeBinary, if_pos hmagic, hd]
          simp only [readField, readLE_one, if_neg hv]
    · exact ⟨.badMagic, by rw [deserializeBinary, if_neg hmagic]⟩
  · intro n rem h
    simp only [decodeEntries, decodeEntry, readField, readLE_eq_none 2 rem h, error_bind]
  · intro n b0 b1 rest h
    have h2 : readLE 2 (b0 :: b1 :: rest) = some (b0 + 256 * b1, rest) := by
      simp [readLE]
    have hdrop : rest.drop (b0 + 256 * b1) = [] :=
      List.drop_eq_nil_of_le (by omega)
    simp only [decodeEntries, decodeEntry, readField, h2, ok_bind, hdrop,
      readLE_eq_none 8 [] (by simp), error_bind]

/-- Witness for C4 (amended): a 3-byte buffer, a 1-byte entry area, and
an entry whose declared key length 5 overruns the 2 remaining bytes all
fail with an error. -/
theorem deserializeBinary_truncation_errors_witness :
    (∃ err, deserializeBinary jsonParseModel [83, 68, 66] =
      (.error err : Except DecodeErr (List (SDBEntry Json)))) ∧
    decodeEntries jsonParseModel 1 [7] =
      (.error .outOfRange : Except DecodeErr (List (SDBEntry Json))) ∧
    decodeEntries jsonParseModel 1 [5, 0, 1, 2] =
      (.error .outOfRange : Except DecodeErr (List (SDBEntry Json))) :=
  ⟨(deserializeBinary_truncation_errors jsonParseModel).1 [83, 68, 66] (by decide),
   (deserializeBinary_truncation_errors jsonParseModel).2.1 0 [7] (by decide),
   (deserializeBinary_truncation_errors jsonParseModel).2.2 0 5 0 [1, 2] (by decide)⟩

/-- Counterexample to C4 as stated: an 8-byte buffer — shorter than the
declared 12-byte header — with entry count 0 decodes SUCCESSFULLY to
the empty entry sequence instead of failing with a truncated-data
error (the reserved bytes are never read). -/
theorem deserializeBinary_truncation_counterexample :
    deserializeBinary jsonParseModel [83, 68, 66, 1, 0, 0, 0, 0] =
      .ok ([] : List (SDBEntry Json)) ∧
    [83, 68, 66, 1, 0, 0, 0, 0].length < 12 :=
  ⟨rfl, by decide⟩

/-! ## C5: the instance registry (`SimpleCache._activeFiles`)

The constructor's persistent branch, embedded over a process-wide
registry of live persistent instances (`_activeFiles : Map path →
instance`).  A JS `throw` in the constructor mutates nothing: in the
model a failing construction returns only the error, so the caller's
registry — and with it every live instance's state — is untouched. -/

/-- The two construction-time errors:
`configError` = `persistent=true requires either "name" or "persistPath"`,
`conflictError` = `Cache file already in use by another instance`. -/
inductive CtorError where
  | configError
  | conflictError
  deriving Repr, DecidableEq

/-- The constructor's path resolution: an explicit `persistPath` wins,
else a path derived from `name` (via `_getPathFromName`, a platform
path computation passed in as `pathFromName`), else throw. -/
def resolvePersistPath (persistPath name : Option String)
    (pathFromName : String → String) : Except CtorError String :=
  match persistPath with
  | some p => .ok p
  | none =>
    match name with
    | some n => .ok (pathFromName n)
    | none => .error .configError

/-- The conflict check and registration against `_activeFiles`. -/
def registerInstance {I : Type} (p : String) (inst : I)
    (reg : List (String × I)) : Except CtorError (List (String × I)) :=
  if mapHas reg p then .error .conflictError else .ok (mapSet reg p inst)

/-- The persistent branch of the constructor: resolve the path, then
fail fast on conflict or register the new instance. -/
def constructPersistent {I : Type} (persistPath name : Option String)
    (pathFromName : String → String) (inst : I) (reg : List (String × I)) :
    Except CtorError (String × List (String × I)) := do
  let p ← resolvePersistPath persistPath name pathFromName
  let reg' ← registerInstance p inst reg
  .ok (p, reg')

/-- `destroy()`'s registry step: `SimpleCache._activeFiles.delete(this.persistPath)`. -/
def destroyInstance {I : Type} (p : String) (reg : List (String × I)) :
    List (String × I) := mapDelete reg p

/-- C5.  (a) While a live instance owns path `p` (it is in the
registry), constructing a second persistent instance resolving to `p`
fails with the conflict error — no new registration happens and the
first instance's registration (hence its state) is untouched; (b)
persistence with neither `name` nor `persistPath` fails with the
configuration error; (c) after the owner's `destroy()`, construction at
`p` succeeds and registers the new instance. -/
theorem singleWriter_registry {I : Type} (reg : List (String × I)) (p : String)
    (inst inst' : I) (name : Option String) (pathFromName : String → String)
    (hlive : mapGet reg p = some inst) (hnd : (keysOf reg).Nodup) :
    constructPersistent (some p) name pathFromName inst' reg =
      .error .conflictError ∧
    (∀ inst₀ : I, constructPersistent none none pathFromName inst₀ reg =
      .error .configError) ∧
    constructPersistent (some p) name pathFromName inst'
        (destroyInstance p reg) =
      .ok (p, mapSet (destroyInstance p reg) p inst') := by
  have hhas : mapHas reg p = true := by
    rw [mapHas, hlive]
    rfl
  refine ⟨?_, fun inst₀ => rfl, ?_⟩
  · simp only [constructPersistent, resolvePersistPath, ok_bind, registerInstance,
      hhas, if_true, error_bind]
  · have hgone : mapHas (destroyInstance p reg) p = false := by
      rw [destroyInstance, mapHas, mapGet_mapDelete_self reg p hnd]
      rfl
    simp only [constructPersistent, resolvePersistPath, ok_bind, registerInstance,
      hgone, Bool.false_eq_true, if_false]

/-- Witness for C5 at a concrete registry: instance `1` owns `"c.sdb"`. -/
theorem singleWriter_registry_witness :
    constructPersistent (some "c.sdb") none (fun n => n) 2 [("c.sdb", 1)] =
      .error .conflictError ∧
    constructPersistent (none : Option String) none (fun n => n) 2
        [("c.sdb", 1)] = .error .configError ∧
    constructPersistent (some "c.sdb") none (fun n => n) 2
        (destroyInstance "c.sdb" [("c.sdb", 1)]) =
      .ok ("c.sdb", [("c.sdb", 2)]) := by
  obtain ⟨h1, h2, h3⟩ :=
    singleWriter_registry [("c.sdb", 1)] "c.sdb" 1 2 none (fun n => n)
      (by decide) (by decide)
  exact ⟨h1, h2 2, h3⟩

/-! ## C6: the debounced writer

Event-driven embedding of `_scheduleSave` under the single-threaded
scheduler.  A persistent `set` (or a `del` that removed a key) calls
`_scheduleSave()`, which clears any pending timeout and arms a new one
`saveDelay` seconds later.  `debounceRun` plays a burst of mutation
times (in ms, ascending) against the pending-timeout state: a timer
due at `p ≤ t` fires (one `_saveToBinary` write at time `p`) before
the mutation at `t`; otherwise the mutation cancels it.  After the
burst, the surviving timer fires.  The returned list is the sequence of
write times. -/

/-- `_scheduleSave()` at time `now`: `clearTimeout` on any pending
timer, then arm a new one at `now + delayMs`. -/
def scheduleSave (delayMs now : Nat) (_pending : Option Nat) : Option Nat :=
  some (now + delayMs)

/-- Play a burst of mutation times against the `_saveTimeout` state;
returns the times at which `_saveToBinary` runs. -/
def debounceRun (delayMs : Nat) : List Nat → Option Nat → List Nat
  | [], none => []
  | [], some p => [p]
  | t :: ts, none => debounceRun delayMs ts (scheduleSave delayMs t none)
  | t :: ts, some p =>
    if p ≤ t then p :: debounceRun delayMs ts (scheduleSave delayMs t none)
    else debounceRun delayMs ts (scheduleSave delayMs t (some p))

/-- The burst condition: mutation times are ascending and each arrives
strictly less than `delayMs` after the previous one. -/
def burstGapsOk (delayMs : Nat) : List Nat → Bool
  | [] => true
  | [_] => true
  | a :: b :: r => decide (a ≤ b) && decide (b < a + delayMs) && burstGapsOk delayMs (b :: r)

theorem debounceRun_armed (delayMs : Nat) (ts : List Nat) :
    ∀ t : Nat, burstGapsOk delayMs (t :: ts) = true →
      debounceRun delayMs ts (some (t + delayMs)) =
        [(t :: ts).getLast (List.cons_ne_nil t ts) + delayMs] := by
  induction ts with
  | nil => intro t _; rfl
  | cons b r ih =>
    intro t hb
    simp only [burstGapsOk, Bool.and_eq_true, decide_eq_true_eq] at hb
    obtain ⟨⟨hab, hlt⟩, hrest⟩ := hb
    rw [debounceRun, if_neg (by omega), scheduleSave]
    rw [ih b (by simpa [burstGapsOk] using hrest)]
    rw [List.getLast_cons (List.cons_ne_nil b r)]

/-- C6.  A burst of `N ≥ 1` persistence-scheduling mutations, each
issued less than `saveDelay` after the previous one, produces exactly
one disk write, at exactly `saveDelay` after the last mutation: every
mutation arriving while a timer is armed cancels it and re-arms
(`debounceRun`'s re-scheduling branch), and only the last timer fires. -/
theorem debounce_coalesces (delayMs t : Nat) (ts : List Nat)
    (h : burstGapsOk delayMs (t :: ts) = true) :
    debounceRun delayMs (t :: ts) none =
      [(t :: ts).getLast (List.cons_ne_nil t ts) + delayMs] := by
  rw [debounceRun, scheduleSave]
  exact debounceRun_armed delayMs ts t h

/-- Witness for C6: three mutations at 0 ms, 1000 ms, 2500 ms with
`saveDelay = 3` s (3000 ms) produce the single write [5500]. -/
theorem debounce_coalesces_witness :
    debounceRun 3000 [0, 1000, 2500] none = [5500] := by
  rw [debounce_coalesces 3000 0 [1000, 2500] (by decide)]
  rfl

/-! ## C9: a stored `null` through `get` and `wrap` -/

/-- The `!== null` test of `wrap`. -/
def Json.isNull : Json → Bool
  | .jnull => true
  | _ => false

/-- The value the caller of `get` observes: JS returns `null` both on
the missing/expired paths and when the stored value is itself `null`
(`store.get(key)` IS `null` then). -/
def getJSValue (c : SimpleCache Json) (key : List Nat) (now : Int) : Json :=
  ((c.get key now).1).getD Json.jnull

/-- `wrap(key, fn, ttl)`: return the cached value unless `get` yielded
`null`; otherwise invoke `fn` (its result is `fnResult`) and cache it.
Returns (result, state after, whether `fn` was invoked). -/
def SimpleCache.wrap (c : SimpleCache Json) (key : List Nat) (fnResult : Json)
    (ttl : Option Int) (defaultTtl : Int) (now : Int) :
    Json × SimpleCache Json × Bool :=
  let cached := getJSValue c key now
  let c' := (c.get key now).2
  if cached.isNull = false then (cached, c', false)
  else (fnResult, c'.set key fnResult ttl defaultTtl now, true)

/-- C9.  For a present, unexpired key whose stored value is `null`:
`get` returns `null` exactly as for an absent key, yet deletes nothing
(the state and `stats()` are unchanged, the key is still present), and
`wrap` invokes its compute function on every such call. -/
theorem get_stored_null_indistinguishable (c : SimpleCache Json) (key : List Nat)
    (now : Int) (fnResult : Json) (ttl : Option Int) (defaultTtl : Int)
    (hv : mapGet c.store key = some Json.jnull)
    (hexp : ∀ e, mapGet c.expiries key = some e → now < e) :
    getJSValue c key now = Json.jnull ∧
    getJSValue c key now = getJSValue (emptyCache Json) key now ∧
    (c.get key now).2 = c ∧
    ((c.get key now).2).stats = c.stats ∧
    mapHas ((c.get key now).2).store key = true ∧
    (c.wrap key fnResult ttl defaultTtl now).2.2 = true ∧
    (c.wrap key fnResult ttl defaultTtl now).1 = fnResult := by
  have hhas : ¬ ¬ mapHas c.store key = true := by
    rw [mapHas, hv]
    simp
  have hget : c.get key now = (some Json.jnull, c) := by
    rw [SimpleCache.get, if_neg hhas]
    match he : mapGet c.expiries key with
    | some e =>
      dsimp only
      rw [if_neg (by have := hexp e he; omega), hv]
    | none =>
      dsimp only
      rw [hv]
  have hjs : getJSValue c key now = Json.jnull := by
    rw [getJSValue, hget]
    rfl
  refine ⟨hjs, by rw [hjs]; rfl, by rw [hget], by rw [hget], ?_, ?_, ?_⟩
  · rw [hget, mapHas, hv]
    rfl
  · rw [SimpleCache.wrap]
    simp only [hjs, Json.isNull, if_neg]
    rfl
  · rw [SimpleCache.wrap]
    simp only [hjs, Json.isNull, if_neg]
    rfl

/-- Witness for C9: the store holds `null` at key `[97]`. -/
theorem get_stored_null_indistinguishable_witness :
    getJSValue (⟨[([97], Json.jnull)], []⟩ : SimpleCache Json) [97] 5 = Json.jnull ∧
    ((⟨[([97], Json.jnull)], []⟩ : SimpleCache Json).wrap [97] (Json.jnum 7)
      none 0 5).2.2 = true := by
  obtain ⟨h1, -, -, -, -, h6, -⟩ :=
    get_stored_null_indistinguishable (⟨[([97], Json.jnull)], []⟩ : SimpleCache Json)
      [97] 5 (Json.jnum 7) none 0 rfl (fun e h => absurd h (by simp [mapGet]))
  exact ⟨h1, h6⟩

/-! ## C10: a serialization throw aborts the whole save -/

/-- The two on-disk files `_saveToBinary` can touch: the snapshot at
`persistPath` and the temporary sibling `persistPath + '.tmp'`
(`none` = the file does not exist). -/
structure DiskFiles where
  target : Option (List Nat)
  temp : Option (List Nat)
  deriving Repr, DecidableEq

/-- `_saveToBinary()`: filter the live entries, serialize, write the
buffer to the temp path and rename it over the target.  Everything is
inside one `try/catch`: when serialization throws (`none`), the catch
only logs — neither file is touched and no entry is persisted. -/
def saveToBinary {V : Type} (stringify : V → List Nat) (c : SimpleCache V)
    (now : Int) (disk : DiskFiles) : DiskFiles :=
  match serializeBinary stringify (saveEntries c now) with
  | none => disk
  | some buffer => { target := some buffer, temp := none }

theorem serializeEntry_eq_none {V : Type} (stringify : V → List Nat)
    (e : SDBEntry V) (h : 65535 < e.key.length) :
    serializeEntry stringify e = none := by
  simp only [serializeEntry, writeUInt16LE, if_neg (by omega : ¬ e.key.length ≤ 65535)]
  rfl

theorem mapM_eq_none_of_mem {V : Type} (f : SDBEntry V → Option (List Nat))
    (es : List (SDBEntry V)) (e : SDBEntry V) (he : e ∈ es) (hf : f e = none) :
    es.mapM f = none := by
  induction es with
  | nil => exact absurd he (List.not_mem_nil e)
  | cons a rest ih =>
    rw [List.mapM_cons]
    rcases List.mem_cons.1 he with rfl | hmem
    · rw [hf]
      rfl
    · match ha : f a with
      | none => rfl
      | some b =>
        simp only [option_some_bind, ih hmem, Option.none_bind]
        rfl

/-- C10.  If some entry of the snapshot has a key whose byte length
exceeds 65535 (out of range for the 2-byte key-length field),
`_serializeBinary` throws; `_saveToBinary`'s catch then writes nothing
at all: no entry is persisted, and both the previous snapshot file and
the temp file are byte-for-byte unchanged. -/
theorem save_aborts_when_serialize_throws {V : Type} (stringify : V → List Nat)
    (c : SimpleCache V) (now : Int) (disk : DiskFiles) (e : SDBEntry V)
    (he : e ∈ saveEntries c now) (hk : 65535 < e.key.length) :
    serializeBinary stringify (saveEntries c now) = none ∧
    saveToBinary stringify c now disk = disk := by
  have hser : serializeBinary stringify (saveEntries c now) = none := by
    rw [serializeBinary]
    have hmapM : (saveEntries c now).mapM (serializeEntry stringify) = none :=
      mapM_eq_none_of_mem _ _ e he (serializeEntry_eq_none stringify e hk)
    match hw : writeUInt32LE (saveEntries c now).length with
    | none => rfl
    | some countB =>
      simp only [option_some_bind, hmapM, Option.none_bind]
      rfl
  exact ⟨hser, by rw [saveToBinary, hser]⟩

/-- Witness for C10: a store holding one permanent entry whose key is
65536 bytes long; the save leaves the disk (a previous snapshot and no
temp file) unchanged. -/
theorem save_aborts_when_serialize_throws_witness :
    serializeBinary Json.stringifyModel
        (saveEntries (⟨[(List.replicate 65536 0, Json.jnull)], []⟩ : SimpleCache Json) 0) =
      none ∧
    saveToBinary Json.stringifyModel
        (⟨[(List.replicate 65536 0, Json.jnull)], []⟩ : SimpleCache Json) 0
        ⟨some [83, 68, 66, 1, 0, 0, 0, 0, 0, 0, 0, 0], none⟩ =
      ⟨some [83, 68, 66, 1, 0, 0, 0, 0, 0, 0, 0, 0], none⟩ :=
  save_aborts_when_serialize_throws Json.stringifyModel
    (⟨[(List.replicate 65536 0, Json.jnull)], []⟩ : SimpleCache Json) 0
    ⟨some [83, 68, 66, 1, 0, 0, 0, 0, 0, 0, 0, 0], none⟩
    ⟨List.replicate 65536 0, Json.jnull, 0⟩
    (List.mem_singleton_self _)
    (by rw [show (⟨List.replicate 65536 0, Json.jnull, 0⟩ : SDBEntry Json).key =
        List.replicate 65536 0 from rfl, List.length_replicate]
        omega)

/-! ## Witnesses for C1 and C8 -/

/-- Witness for C1 at concrete entries: a permanent entry whose value
is a nested object (`{"id":1,"n":[2,"x"]}`) and a timestamped boolean
entry round-trip through the codec. -/
theorem serializeBinary_deserializeBinary_roundtrip_witness :
    ([⟨[97], Json.jobj [([105, 100], Json.jnum 1),
        ([110], Json.jarr [Json.jnum 2, Json.jstr [120]])], 0⟩,
      ⟨[98], Json.jbool true, 2000⟩] : List (SDBEntry Json)).length ≤ 4294967295 ∧
    (∀ e ∈ ([⟨[97], Json.jobj [([105, 100], Json.jnum 1),
        ([110], Json.jarr [Json.jnum 2, Json.jstr [120]])], 0⟩,
      ⟨[98], Json.jbool true, 2000⟩] : List (SDBEntry Json)),
      EntryWF Json.stringifyModel jsonParseModel e) ∧
    ∃ buf,
      serializeBinary Json.stringifyModel
          [⟨[97], Json.jobj [([105, 100], Json.jnum 1),
              ([110], Json.jarr [Json.jnum 2, Json.jstr [120]])], 0⟩,
            ⟨[98], Json.jbool true, 2000⟩] = some buf ∧
      deserializeBinary jsonParseModel buf =
        .ok [⟨[97], Json.jobj [([105, 100], Json.jnum 1),
            ([110], Json.jarr [Json.jnum 2, Json.jstr [120]])], 0⟩,
          ⟨[98], Json.jbool true, 2000⟩] := by
  have hwf : ∀ e ∈ ([⟨[97], Json.jobj [([105, 100], Json.jnum 1),
      ([110], Json.jarr [Json.jnum 2, Json.jstr [120]])], 0⟩,
      ⟨[98], Json.jbool true, 2000⟩] : List (SDBEntry Json)),
      EntryWF Json.stringifyModel jsonParseModel e := by
    intro e he
    rcases List.mem_cons.1 he with rfl | he
    · exact ⟨by decide, by decide, by decide, by decide, by decide, rfl⟩
    rcases List.mem_cons.1 he with rfl | he
    · exact ⟨by decide, by decide, by decide, by decide, by decide, rfl⟩
    · exact absurd he (List.not_mem_nil e)
  exact ⟨by decide, hwf,
    serializeBinary_deserializeBinary_roundtrip Json.stringifyModel jsonParseModel
      _ (by decide) hwf⟩

/-- Witness for C8 at a concrete state holding one TTL'd entry. -/
theorem expiryInvariant_preserved_witness :
    expiryInvariant (⟨[([97], Json.jnum 1)], [([97], 2000)]⟩ : SimpleCache Json) ∧
    (keysOf ((⟨[([97], Json.jnum 1)], [([97], 2000)]⟩ : SimpleCache Json)).expiries).Nodup ∧
    expiryInvariant
      (((⟨[([97], Json.jnum 1)], [([97], 2000)]⟩ : SimpleCache Json)).get [97] 3000).2 ∧
    expiryInvariant
      (cleanupTick (⟨[([97], Json.jnum 1)], [([97], 2000)]⟩ : SimpleCache Json) 3000) := by
  have hInv : expiryInvariant (⟨[([97], Json.jnum 1)], [([97], 2000)]⟩ : SimpleCache Json) := by
    intro k hk
    by_cases h : [97] = k <;> simp_all [mapHas, mapGet]
  have hnd : (keysOf ((⟨[([97], Json.jnum 1)], [([97], 2000)]⟩ :
      SimpleCache Json)).expiries).Nodup := by decide
  obtain ⟨-, h2, -, -, h5, -, -, -⟩ :=
    expiryInvariant_preserved (⟨[([97], Json.jnum 1)], [([97], 2000)]⟩ : SimpleCache Json)
      3000 [97] Json.jnull none 0 hInv hnd
  exact ⟨hInv, hnd, h2, h5⟩

end SimpleCacheId
